import Mathlib

/-!
Verification of the Tweak Application & Rollback Engine of Arc Booster
(`arc_booster.py`), shallowly embedded in Lean.

The embedding covers:
* the persisted JSON state file (`load_applied_tweaks`, `save_applied_tweaks`);
* the tweak data model (`Tweak`);
* the apply batch (`_apply_worker`), the restore batch (`_restore_worker`),
  the restoration plan computed in `_on_restore`, and the empty-selection
  guard of `_on_apply`.

The external command executor (`run_powershell`) is treated as an oracle
`Nat → String → Bool × String` mapping an invocation index and a command to
the (success, output) pair it reports; the engine code only ever inspects
that pair.  External effects performed by a batch are recorded as an
explicit event trace (`Ev`): one `Ev.call` per executor invocation and one
`Ev.persist` per invocation of `save_applied_tweaks`.
-/

namespace ArcBooster

/-- Python values produced by `json.load`, as relevant to the state file:
null, booleans, numbers, strings, lists and dicts. -/
inductive Json where
  | null : Json
  | bool (b : Bool) : Json
  | num (n : Int) : Json
  | str (s : String) : Json
  | arr (xs : List Json) : Json
  | obj (kvs : List (String × Json)) : Json

/-- Python exceptions that can escape `load_applied_tweaks` (its `except`
clause catches only `json.JSONDecodeError` and `OSError`). -/
inductive PyError where
  | attributeError : PyError
  | typeError : PyError
deriving DecidableEq

/-- State of the persisted backup file as seen by `load_applied_tweaks`:
the file may be missing (`BACKUP_FILE.exists()` is false), unreadable
(opening or reading raises `OSError`), or readable, in which case
`json.load` either fails (`none`, a `json.JSONDecodeError`) or yields a
parsed value (`some j`). -/
inductive FileState where
  | missing : FileState
  | unreadable : FileState
  | content (parsed : Option Json) : FileState

/-- Python `dict.get(key, default)` on an association list (first binding
wins, as for a Python dict). -/
def dictGet (kvs : List (String × Json)) (key : String) (dflt : Json) : Json :=
  match kvs.find? (fun kv => kv.1 == key) with
  | some kv => kv.2
  | none => dflt

/-- Python attribute access `data.get(key, default)`: defined on dicts,
raises `AttributeError` on every other value. -/
def pyGet (j : Json) (key : String) (dflt : Json) : Except PyError Json :=
  match j with
  | Json.obj kvs => Except.ok (dictGet kvs key dflt)
  | _ => Except.error PyError.attributeError

/-- Whether a Python value is hashable (may be a member of a `set`). -/
def Json.hashable : Json → Bool
  | Json.null => true
  | Json.bool _ => true
  | Json.num _ => true
  | Json.str _ => true
  | Json.arr _ => false
  | Json.obj _ => false

/-- Python `set(x)`: iterates `x` and collects its elements.  Lists yield
their (hashable) elements, strings yield their characters as one-character
strings, dicts yield their keys; other values are not iterable and raise
`TypeError`, as does a list with an unhashable element.  The resulting set
is represented by the list of collected elements (membership is what
matters; duplicates are irrelevant to every statement below). -/
def pySet : Json → Except PyError (List Json)
  | Json.arr xs => if xs.all Json.hashable then Except.ok xs else Except.error PyError.typeError
  | Json.str s => Except.ok (s.toList.map (fun c => Json.str c.toString))
  | Json.obj kvs => Except.ok (kvs.map (fun kv => Json.str kv.1))
  | _ => Except.error PyError.typeError

/-- Embedding of `load_applied_tweaks`: on a missing file, an `OSError`,
or a `json.JSONDecodeError` it returns `set()`; otherwise it evaluates
`set(data.get("applied", []))`, whose exceptions (`AttributeError`,
`TypeError`) are not caught and propagate. -/
def load_applied_tweaks : FileState → Except PyError (List Json)
  | FileState.missing => Except.ok []
  | FileState.unreadable => Except.ok []
  | FileState.content none => Except.ok []
  | FileState.content (some j) =>
    match pyGet j "applied" (Json.arr []) with
    | Except.error e => Except.error e
    | Except.ok v => pySet v

/-- The JSON record written by `save_applied_tweaks`: the sorted list of
applied ids under `"applied"` plus a timestamp under `"last_modified"`. -/
def save_record (applied : Finset String) (ts : String) : Json :=
  Json.obj [("applied", Json.arr ((applied.sort (· ≤ ·)).map Json.str)),
            ("last_modified", Json.str ts)]

/-- Embedding of `save_applied_tweaks`: attempts the durable write and
returns the file state afterwards together with the value the caller sees.
`writeOk` abstracts whether the directory creation and write succeed; on
failure the raised `OSError` is caught and discarded (`pass`), so the
function returns normally (Python `None`, i.e. `Except.ok ()`) in both
cases and the previous durable state is kept. -/
def save_applied_tweaks_run (applied : Finset String) (ts : String) (writeOk : Bool)
    (prev : FileState) : FileState × Except PyError Unit :=
  if writeOk then
    (FileState.content (some (save_record applied ts)), Except.ok ())
  else
    (prev, Except.ok ())

theorem applied_list_all_hashable (l : List String) :
    ((l.map Json.str).all Json.hashable) = true := by
  simp only [List.all_eq_true, List.mem_map]
  rintro x ⟨s, hs, rfl⟩
  rfl

/-- Claim C6 — confirmed.  Loading immediately after a successful
`save(S)` returns exactly the set `S` (the result is the sorted id list,
whose members are precisely the `Json.str` images of the members of `S`),
and two saves of the same set produce records that agree on everything but
the `"last_modified"` timestamp: the `"applied"` array is written sorted,
hence is deterministic in `S`. -/
theorem save_load_roundtrip (S : Finset String) (t1 t2 : String) (prev : FileState) :
    load_applied_tweaks (save_applied_tweaks_run S t1 true prev).1
        = Except.ok ((S.sort (· ≤ ·)).map Json.str)
    ∧ (∀ s : String, Json.str s ∈ (S.sort (· ≤ ·)).map Json.str ↔ s ∈ S)
    ∧ ∃ a, save_record S t1 = Json.obj [("applied", a), ("last_modified", Json.str t1)]
        ∧ save_record S t2 = Json.obj [("applied", a), ("last_modified", Json.str t2)] := by
  refine ⟨?_, ?_, ⟨Json.arr ((S.sort (· ≤ ·)).map Json.str), rfl, rfl⟩⟩
  · show load_applied_tweaks (FileState.content (some (save_record S t1)))
        = Except.ok ((S.sort (· ≤ ·)).map Json.str)
    simp [load_applied_tweaks, save_record, pyGet, dictGet, pySet, Json.hashable]
  · intro s
    constructor
    · intro hs
      rcases List.mem_map.1 hs with ⟨u, hu, he⟩
      cases he
      exact (Finset.mem_sort (α := String) (· ≤ ·)).1 hu
    · intro hs
      exact List.mem_map.2 ⟨s, (Finset.mem_sort (α := String) (· ≤ ·)).2 hs, rfl⟩

/-- Witness for C6 at a concrete one-element set. -/
theorem save_load_roundtrip_witness :
    load_applied_tweaks
        (save_applied_tweaks_run ({"a_id"} : Finset String) "2024-01-01" true FileState.missing).1
      = Except.ok ((({"a_id"} : Finset String).sort (· ≤ ·)).map Json.str) :=
  (save_load_roundtrip {"a_id"} "2024-01-01" "2024-01-02" FileState.missing).1

/-- Claim C7 — counterexample.  A persisted file holding the valid JSON
text `[]` (a list, not an object) makes `load_applied_tweaks` raise: the
`except` clause catches only `json.JSONDecodeError` and `OSError`, so the
`AttributeError` from `data.get` on a list escapes to the caller instead
of an empty set being returned. -/
theorem load_nonobject_raises :
    load_applied_tweaks (FileState.content (some (Json.arr [])))
      = Except.error PyError.attributeError := rfl

/-- Claim C7 — amended.  When the persisted file is missing, unreadable
(the read raises `OSError`), or its content is not parseable as JSON,
`load_applied_tweaks` returns the empty set without raising; a parseable
file whose top level is not a JSON object instead raises an uncaught
`AttributeError` (see the counterexample). -/
theorem load_missing_or_unparseable_empty :
    load_applied_tweaks FileState.missing = Except.ok []
    ∧ load_applied_tweaks FileState.unreadable = Except.ok []
    ∧ load_applied_tweaks (FileState.content none) = Except.ok [] :=
  ⟨rfl, rfl, rfl⟩

/-- Claim C8 — counterexample.  A failed durable write is indistinguishable
from a successful one at the engine layer: `save_applied_tweaks` catches
the `OSError` and falls through (`pass`), so the caller receives the same
normal `None` return in both cases and no warning of any kind. -/
theorem save_failure_silent_example :
    (save_applied_tweaks_run ∅ "2024-01-01" false FileState.missing).2 = Except.ok ()
    ∧ (save_applied_tweaks_run ∅ "2024-01-01" true FileState.missing).2 = Except.ok () :=
  ⟨rfl, rfl⟩

/-- Claim C8 — amended.  A failed durable write is non-fatal — the save
call always returns normally, so the in-memory applied set remains
authoritative for the rest of the process — but the failure is silently
swallowed rather than reported: the result seen by the engine is
`Except.ok ()` whether the write succeeded or failed. -/
theorem save_never_reports_failure (S : Finset String) (ts : String) (w : Bool)
    (prev : FileState) :
    (save_applied_tweaks_run S ts w prev).2 = Except.ok () := by
  cases w <;> rfl

/-- One entry of the `TWEAKS` registry: the fields of the Python tweak
dict.  `restore_cmd = none` marks an irreversible (one-way) tweak. -/
structure Tweak where
  id : String
  name : String
  description : String
  category : String
  admin : Bool
  apply_cmd : String
  restore_cmd : Option String
deriving DecidableEq

/-- The command executor (`run_powershell`) as an oracle: given the index
of the invocation within the batch and the command string, it reports the
(success, output) pair.  It never raises; all failure modes collapse into
a `false` flag with a message. -/
abbrev Exec := Nat → String → Bool × String

/-- Per-tweak, per-batch outcome, as classified by the worker loops: the
success branch logs and records the tweak (`applied` / `restored`), the
privilege gate logs a skip (`skippedPrivilege`), and the failure branch
logs the executor's message (`failed`). -/
inductive Outcome where
  | applied : Outcome
  | restored : Outcome
  | skippedPrivilege : Outcome
  | failed (msg : String) : Outcome
deriving DecidableEq

/-- Externally visible side effects of a batch, in program order: one
`call` per executor invocation and one `persist` per call of
`save_applied_tweaks` (carrying the set being written). -/
inductive Ev where
  | call (cmd : String) : Ev
  | persist (ids : Finset String) : Ev
deriving DecidableEq

/-- Whether an event is a durable-state write. -/
def Ev.isPersist : Ev → Bool
  | Ev.call _ => false
  | Ev.persist _ => true

/-- Accumulated state of the `_apply_worker` loop: the `newly_applied`
and `skipped_admin` lists built by the Python code, plus the per-tweak
outcome classification and the emitted events. -/
structure BatchAcc where
  newly_applied : List String
  skipped_admin : List String
  outcomes : List (Tweak × Outcome)
  events : List Ev

/-- The per-tweak loop of `_apply_worker`: for each selected tweak, in
order, either skip it at the privilege gate (no executor call), or invoke
the executor with `apply_cmd` and append the id to `newly_applied` exactly
when the executor reports success.  `k` is the index of the next executor
invocation. -/
def applyLoop (admin : Bool) (exec : Exec) : Nat → List Tweak → BatchAcc
  | _, [] => ⟨[], [], [], []⟩
  | k, t :: ts =>
    if t.admin && !admin then
      let r := applyLoop admin exec k ts
      ⟨r.newly_applied, t.name :: r.skipped_admin,
        (t, Outcome.skippedPrivilege) :: r.outcomes, r.events⟩
    else if (exec k t.apply_cmd).1 then
      let r := applyLoop admin exec (k + 1) ts
      ⟨t.id :: r.newly_applied, r.skipped_admin,
        (t, Outcome.applied) :: r.outcomes, Ev.call t.apply_cmd :: r.events⟩
    else
      let r := applyLoop admin exec (k + 1) ts
      ⟨r.newly_applied, r.skipped_admin,
        (t, Outcome.failed (exec k t.apply_cmd).2) :: r.outcomes,
        Ev.call t.apply_cmd :: r.events⟩

/-- Result of a completed batch: the applied set after reconciliation at
batch end, the outcome records, and the full event trace. -/
structure BatchDone where
  final : Finset String
  outcomes : List (Tweak × Outcome)
  events : List Ev

/-- Embedding of `_apply_worker`: run the loop over the selection, then
`self._applied.update(newly_applied)` followed by a single
`save_applied_tweaks(self._applied)`. -/
def apply_worker (admin : Bool) (exec : Exec) (selected : List Tweak)
    (applied : Finset String) : BatchDone :=
  let r := applyLoop admin exec 0 selected
  let final := applied ∪ r.newly_applied.toFinset
  ⟨final, r.outcomes, r.events ++ [Ev.persist final]⟩

/-- Accumulated state of the `_restore_worker` loop: the `restored` id
list built by the Python code, plus outcomes and events. -/
structure RestoreAcc where
  restored : List String
  outcomes : List (Tweak × Outcome)
  events : List Ev

/-- The body of one `_restore_worker` iteration past the privilege gate:
`ok, output = run_powershell(tweak["restore_cmd"])`, appending the id to
`restored` exactly when the executor reports success.  A `restore_cmd` of
`None` would make the Python code call the executor with `None` and crash
with an uncaught `TypeError`; that is modelled as `none` (the program only
ever passes lists filtered to have a restore command). -/
def restoreExec (exec : Exec) (k : Nat) (t : Tweak) :
    Option String → Option RestoreAcc → Option RestoreAcc
  | none, _ => none
  | some cmd, rest =>
    if (exec k cmd).1 then
      rest.map fun r =>
        ⟨t.id :: r.restored, (t, Outcome.restored) :: r.outcomes,
          Ev.call cmd :: r.events⟩
    else
      rest.map fun r =>
        ⟨r.restored, (t, Outcome.failed (exec k cmd).2) :: r.outcomes,
          Ev.call cmd :: r.events⟩

/-- The per-tweak loop of `_restore_worker`: for each restorable tweak,
in order, either skip it at the privilege gate (no executor call, the
tweak stays in the applied set), or run `restoreExec` on its restore
command.  `k` is the index of the next executor invocation. -/
def restoreLoop (admin : Bool) (exec : Exec) : Nat → List Tweak → Option RestoreAcc
  | _, [] => some ⟨[], [], []⟩
  | k, t :: ts =>
    if t.admin && !admin then
      (restoreLoop admin exec k ts).map fun r =>
        ⟨r.restored, (t, Outcome.skippedPrivilege) :: r.outcomes, r.events⟩
    else
      restoreExec exec k t t.restore_cmd (restoreLoop admin exec (k + 1) ts)

/-- Embedding of `_restore_worker`: run the loop, then discard every
successfully restored id from the applied set and persist once. -/
def restore_worker (admin : Bool) (exec : Exec) (restorable : List Tweak)
    (applied : Finset String) : Option BatchDone :=
  (restoreLoop admin exec 0 restorable).map fun r =>
    let final := applied \ r.restored.toFinset
    ⟨final, r.outcomes, r.events ++ [Ev.persist final]⟩

/-- The restorable list computed by `_on_restore`: registry tweaks whose
id is in the applied set and whose `restore_cmd` is not `None`, in
registry order. -/
def plan_restorable (tweaks : List Tweak) (applied : Finset String) : List Tweak :=
  tweaks.filter fun t => decide (t.id ∈ applied) && t.restore_cmd.isSome

/-- The irreversible list computed by `_on_restore`: registry tweaks whose
id is in the applied set and whose `restore_cmd` is `None`, in registry
order. -/
def plan_irreversible (tweaks : List Tweak) (applied : Finset String) : List Tweak :=
  tweaks.filter fun t => decide (t.id ∈ applied) && t.restore_cmd.isNone

/-- What `_on_apply` produces before/instead of starting a batch: the
applied set afterwards, the emitted events, and the informational popup
message shown when the selection is empty. -/
structure ApplyResponse where
  final : Finset String
  events : List Ev
  info : Option String
deriving DecidableEq

/-- Embedding of `_on_apply`: compute the selection from the registry and
the checkbox state; when it is empty, show an informational message and
return without starting a batch; otherwise run the apply batch. -/
def on_apply (tweaks : List Tweak) (checked : String → Bool) (admin : Bool)
    (exec : Exec) (applied : Finset String) : ApplyResponse :=
  let selected := tweaks.filter fun t => checked t.id
  if selected.isEmpty then
    ⟨applied, [], some "Please select at least one tweak to apply."⟩
  else
    let d := apply_worker admin exec selected applied
    ⟨d.final, d.events, none⟩

/-- Ids of the outcome records marked `applied` (the claims' description
of `newly_applied`). -/
def appliedIds (outs : List (Tweak × Outcome)) : List String :=
  outs.filterMap fun p => if p.2 = Outcome.applied then some p.1.id else none

/-- Ids of the outcome records marked `restored` (the claims' description
of the `restored` list). -/
def restoredIds (outs : List (Tweak × Outcome)) : List String :=
  outs.filterMap fun p => if p.2 = Outcome.restored then some p.1.id else none

theorem applyLoop_outcomes_fst (admin : Bool) (exec : Exec) :
    ∀ (k : Nat) (sel : List Tweak),
      ((applyLoop admin exec k sel).outcomes).map Prod.fst = sel := by
  intro k sel
  induction sel generalizing k with
  | nil => simp [applyLoop]
  | cons t ts ih =>
    cases hg : t.admin && !admin with
    | true => simp [applyLoop, hg, ih]
    | false =>
      cases hr : (exec k t.apply_cmd).1 with
      | true => simp [applyLoop, hg, hr, ih]
      | false => simp [applyLoop, hg, hr, ih]

theorem applyLoop_newly (admin : Bool) (exec : Exec) :
    ∀ (k : Nat) (sel : List Tweak),
      (applyLoop admin exec k sel).newly_applied
        = appliedIds (applyLoop admin exec k sel).outcomes := by
  intro k sel
  induction sel generalizing k with
  | nil => simp [applyLoop, appliedIds]
  | cons t ts ih =>
    cases hg : t.admin && !admin with
    | true => simp [applyLoop, hg, appliedIds, ih k]
    | false =>
      cases hr : (exec k t.apply_cmd).1 with
      | true => simp [applyLoop, hg, hr, appliedIds, ih (k + 1)]
      | false => simp [applyLoop, hg, hr, appliedIds, ih (k + 1)]

theorem applyLoop_events (admin : Bool) (exec : Exec) :
    ∀ (k : Nat) (sel : List Tweak), ∀ e ∈ (applyLoop admin exec k sel).events,
      ∃ t, t ∈ sel ∧ (t.admin && !admin) = false ∧ e = Ev.call t.apply_cmd := by
  intro k sel
  induction sel generalizing k with
  | nil => simp [applyLoop]
  | cons t ts ih =>
    intro e he
    cases hg : t.admin && !admin with
    | true =>
      simp only [applyLoop, hg, if_true] at he
      obtain ⟨u, hu, hgu, heu⟩ := ih k e he
      exact ⟨u, List.mem_cons_of_mem _ hu, hgu, heu⟩
    | false =>
      cases hr : (exec k t.apply_cmd).1 with
      | true =>
        simp only [applyLoop, hg, hr, if_true, Bool.false_eq_true, if_false,
          List.mem_cons] at he
        rcases he with he | he
        · exact ⟨t, List.mem_cons_self _ _, hg, he⟩
        · obtain ⟨u, hu, hgu, heu⟩ := ih (k + 1) e he
          exact ⟨u, List.mem_cons_of_mem _ hu, hgu, heu⟩
      | false =>
        simp only [applyLoop, hg, hr, Bool.false_eq_true, if_false,
          List.mem_cons] at he
        rcases he with he | he
        · exact ⟨t, List.mem_cons_self _ _, hg, he⟩
        · obtain ⟨u, hu, hgu, heu⟩ := ih (k + 1) e he
          exact ⟨u, List.mem_cons_of_mem _ hu, hgu, heu⟩

theorem applyLoop_gated_outcome (admin : Bool) (exec : Exec) :
    ∀ (k : Nat) (sel : List Tweak), ∀ p ∈ (applyLoop admin exec k sel).outcomes,
      (p.1.admin && !admin) = true → p.2 = Outcome.skippedPrivilege := by
  intro k sel
  induction sel generalizing k with
  | nil => simp [applyLoop]
  | cons t ts ih =>
    intro p hp hadm
    cases hg : t.admin && !admin with
    | true =>
      simp only [applyLoop, hg, if_true, List.mem_cons] at hp
      rcases hp with hp | hp
      · subst hp; rfl
      · exact ih k p hp hadm
    | false =>
      cases hr : (exec k t.apply_cmd).1 with
      | true =>
        simp only [applyLoop, hg, hr, if_true, Bool.false_eq_true, if_false,
          List.mem_cons] at hp
        rcases hp with hp | hp
        · subst hp; rw [hg] at hadm; exact absurd hadm (by simp)
        · exact ih (k + 1) p hp hadm
      | false =>
        simp only [applyLoop, hg, hr, Bool.false_eq_true, if_false,
          List.mem_cons] at hp
        rcases hp with hp | hp
        · subst hp; rw [hg] at hadm; exact absurd hadm (by simp)
        · exact ih (k + 1) p hp hadm

theorem applyLoop_gated_mem (admin : Bool) (exec : Exec) :
    ∀ (k : Nat) (sel : List Tweak), ∀ t ∈ sel, (t.admin && !admin) = true →
      (t, Outcome.skippedPrivilege) ∈ (applyLoop admin exec k sel).outcomes := by
  intro k sel
  induction sel generalizing k with
  | nil => simp
  | cons u ts ih =>
    intro t ht hadm
    rcases List.mem_cons.1 ht with rfl | ht
    · simp [applyLoop, hadm]
    · cases hg : u.admin && !admin with
      | true => simp only [applyLoop, hg, if_true, List.mem_cons]; right; exact ih k t ht hadm
      | false =>
        cases hr : (exec k u.apply_cmd).1 with
        | true =>
          simp only [applyLoop, hg, hr, if_true, Bool.false_eq_true, if_false,
            List.mem_cons]
          right; exact ih (k + 1) t ht hadm
        | false =>
          simp only [applyLoop, hg, hr, Bool.false_eq_true, if_false, List.mem_cons]
          right; exact ih (k + 1) t ht hadm

theorem applyLoop_outcome_kinds (admin : Bool) (exec : Exec) :
    ∀ (k : Nat) (sel : List Tweak), ∀ p ∈ (applyLoop admin exec k sel).outcomes,
      p.2 = Outcome.applied ∨ p.2 = Outcome.skippedPrivilege
        ∨ ∃ m, p.2 = Outcome.failed m := by
  intro k sel
  induction sel generalizing k with
  | nil => simp [applyLoop]
  | cons t ts ih =>
    intro p hp
    cases hg : t.admin && !admin with
    | true =>
      simp only [applyLoop, hg, if_true, List.mem_cons] at hp
      rcases hp with hp | hp
      · subst hp; right; left; rfl
      · exact ih k p hp
    | false =>
      cases hr : (exec k t.apply_cmd).1 with
      | true =>
        simp only [applyLoop, hg, hr, if_true, Bool.false_eq_true, if_false,
          List.mem_cons] at hp
        rcases hp with hp | hp
        · subst hp; left; rfl
        · exact ih (k + 1) p hp
      | false =>
        simp only [applyLoop, hg, hr, Bool.false_eq_true, if_false,
          List.mem_cons] at hp
        rcases hp with hp | hp
        · subst hp; right; right; exact ⟨_, rfl⟩
        · exact ih (k + 1) p hp

theorem mem_appliedIds (outs : List (Tweak × Outcome)) (x : String) :
    x ∈ appliedIds outs ↔ ∃ p, p ∈ outs ∧ p.2 = Outcome.applied ∧ p.1.id = x := by
  simp only [appliedIds, List.mem_filterMap]
  constructor
  · rintro ⟨p, hp, hx⟩
    by_cases h : p.2 = Outcome.applied
    · rw [if_pos h] at hx
      exact ⟨p, hp, h, Option.some_injective _ hx⟩
    · rw [if_neg h] at hx; exact absurd hx (by simp)
  · rintro ⟨p, hp, h, rfl⟩
    exact ⟨p, hp, by rw [if_pos h]⟩

theorem mem_restoredIds (outs : List (Tweak × Outcome)) (x : String) :
    x ∈ restoredIds outs ↔ ∃ p, p ∈ outs ∧ p.2 = Outcome.restored ∧ p.1.id = x := by
  simp only [restoredIds, List.mem_filterMap]
  constructor
  · rintro ⟨p, hp, hx⟩
    by_cases h : p.2 = Outcome.restored
    · rw [if_pos h] at hx
      exact ⟨p, hp, h, Option.some_injective _ hx⟩
    · rw [if_neg h] at hx; exact absurd hx (by simp)
  · rintro ⟨p, hp, h, rfl⟩
    exact ⟨p, hp, by rw [if_pos h]⟩

theorem restoreLoop_nil (admin : Bool) (exec : Exec) (k : Nat) :
    restoreLoop admin exec k [] = some ⟨[], [], []⟩ := rfl

theorem restoreLoop_cons_gated (admin : Bool) (exec : Exec) (k : Nat) (t : Tweak)
    (ts : List Tweak) (hg : (t.admin && !admin) = true) :
    restoreLoop admin exec k (t :: ts)
      = (restoreLoop admin exec k ts).map fun r =>
          ⟨r.restored, (t, Outcome.skippedPrivilege) :: r.outcomes, r.events⟩ := by
  rw [restoreLoop, if_pos hg]

theorem restoreLoop_cons_none (admin : Bool) (exec : Exec) (k : Nat) (t : Tweak)
    (ts : List Tweak) (hg : (t.admin && !admin) = false)
    (hcmd : t.restore_cmd = none) :
    restoreLoop admin exec k (t :: ts) = none := by
  rw [restoreLoop, if_neg (by simp [hg]), hcmd, restoreExec]

theorem restoreLoop_cons_ok (admin : Bool) (exec : Exec) (k : Nat) (t : Tweak)
    (ts : List Tweak) (cmd : String) (hg : (t.admin && !admin) = false)
    (hcmd : t.restore_cmd = some cmd) (he : (exec k cmd).1 = true) :
    restoreLoop admin exec k (t :: ts)
      = (restoreLoop admin exec (k + 1) ts).map fun r =>
          ⟨t.id :: r.restored, (t, Outcome.restored) :: r.outcomes,
            Ev.call cmd :: r.events⟩ := by
  rw [restoreLoop, if_neg (by simp [hg]), hcmd, restoreExec, if_pos he]

theorem restoreLoop_cons_fail (admin : Bool) (exec : Exec) (k : Nat) (t : Tweak)
    (ts : List Tweak) (cmd : String) (hg : (t.admin && !admin) = false)
    (hcmd : t.restore_cmd = some cmd) (he : (exec k cmd).1 = false) :
    restoreLoop admin exec k (t :: ts)
      = (restoreLoop admin exec (k + 1) ts).map fun r =>
          ⟨r.restored, (t, Outcome.failed (exec k cmd).2) :: r.outcomes,
            Ev.call cmd :: r.events⟩ := by
  rw [restoreLoop, if_neg (by simp [hg]), hcmd, restoreExec, if_neg (by simp [he])]

theorem restoreLoop_total (admin : Bool) (exec : Exec) :
    ∀ (k : Nat) (sel : List Tweak), (∀ t ∈ sel, t.restore_cmd ≠ none) →
      ∃ r, restoreLoop admin exec k sel = some r := by
  intro k sel
  induction sel generalizing k with
  | nil => exact fun _ => ⟨⟨[], [], []⟩, rfl⟩
  | cons t ts ih =>
    intro hc
    have hts : ∀ u ∈ ts, u.restore_cmd ≠ none :=
      fun u hu => hc u (List.mem_cons_of_mem _ hu)
    cases hg : t.admin && !admin with
    | true =>
      obtain ⟨r, hr⟩ := ih k hts
      exact ⟨_, by rw [restoreLoop_cons_gated admin exec k t ts hg, hr]; rfl⟩
    | false =>
      cases hcmd : t.restore_cmd with
      | none => exact absurd hcmd (hc t (List.mem_cons_self _ _))
      | some cmd =>
        obtain ⟨r, hr⟩ := ih (k + 1) hts
        cases he : (exec k cmd).1 with
        | true =>
          exact ⟨_, by rw [restoreLoop_cons_ok admin exec k t ts cmd hg hcmd he, hr]; rfl⟩
        | false =>
          exact ⟨_, by rw [restoreLoop_cons_fail admin exec k t ts cmd hg hcmd he, hr]; rfl⟩

theorem restoreLoop_outcomes_fst (admin : Bool) (exec : Exec) :
    ∀ (k : Nat) (sel : List Tweak) (r : RestoreAcc),
      restoreLoop admin exec k sel = some r → r.outcomes.map Prod.fst = sel := by
  intro k sel
  induction sel generalizing k with
  | nil =>
    intro r h
    rw [restoreLoop_nil, Option.some_inj] at h
    subst h; rfl
  | cons t ts ih =>
    intro r h
    cases hg : t.admin && !admin with
    | true =>
      rw [restoreLoop_cons_gated admin exec k t ts hg] at h
      obtain ⟨r', hrec, rfl⟩ := Option.map_eq_some'.1 h
      simp [ih k r' hrec]
    | false =>
      cases hcmd : t.restore_cmd with
      | none =>
        rw [restoreLoop_cons_none admin exec k t ts hg hcmd] at h
        exact Option.noConfusion h
      | some cmd =>
        cases he : (exec k cmd).1 with
        | true =>
          rw [restoreLoop_cons_ok admin exec k t ts cmd hg hcmd he] at h
          obtain ⟨r', hrec, rfl⟩ := Option.map_eq_some'.1 h
          simp [ih (k + 1) r' hrec]
        | false =>
          rw [restoreLoop_cons_fail admin exec k t ts cmd hg hcmd he] at h
          obtain ⟨r', hrec, rfl⟩ := Option.map_eq_some'.1 h
          simp [ih (k + 1) r' hrec]

theorem restoreLoop_restored (admin : Bool) (exec : Exec) :
    ∀ (k : Nat) (sel : List Tweak) (r : RestoreAcc),
      restoreLoop admin exec k sel = some r →
        r.restored = restoredIds r.outcomes := by
  intro k sel
  induction sel generalizing k with
  | nil =>
    intro r h
    rw [restoreLoop_nil, Option.some_inj] at h
    subst h; rfl
  | cons t ts ih =>
    intro r h
    cases hg : t.admin && !admin with
    | true =>
      rw [restoreLoop_cons_gated admin exec k t ts hg] at h
      obtain ⟨r', hrec, rfl⟩ := Option.map_eq_some'.1 h
      simp [restoredIds, ih k r' hrec]
    | false =>
      cases hcmd : t.restore_cmd with
      | none =>
        rw [restoreLoop_cons_none admin exec k t ts hg hcmd] at h
        exact Option.noConfusion h
      | some cmd =>
        cases he : (exec k cmd).1 with
        | true =>
          rw [restoreLoop_cons_ok admin exec k t ts cmd hg hcmd he] at h
          obtain ⟨r', hrec, rfl⟩ := Option.map_eq_some'.1 h
          simp [restoredIds, ih (k + 1) r' hrec]
        | false =>
          rw [restoreLoop_cons_fail admin exec k t ts cmd hg hcmd he] at h
          obtain ⟨r', hrec, rfl⟩ := Option.map_eq_some'.1 h
          simp [restoredIds, ih (k + 1) r' hrec]

theorem restoreLoop_events (admin : Bool) (exec : Exec) :
    ∀ (k : Nat) (sel : List Tweak) (r : RestoreAcc),
      restoreLoop admin exec k sel = some r →
        ∀ e ∈ r.events, ∃ t, t ∈ sel ∧ (t.admin && !admin) = false
          ∧ ∃ c, t.restore_cmd = some c ∧ e = Ev.call c := by
  intro k sel
  induction sel generalizing k with
  | nil =>
    intro r h
    rw [restoreLoop_nil, Option.some_inj] at h
    subst h; simp
  | cons t ts ih =>
    intro r h e he
    cases hg : t.admin && !admin with
    | true =>
      rw [restoreLoop_cons_gated admin exec k t ts hg] at h
      obtain ⟨r', hrec, rfl⟩ := Option.map_eq_some'.1 h
      obtain ⟨u, hu, hgu, hc⟩ := ih k r' hrec e he
      exact ⟨u, List.mem_cons_of_mem _ hu, hgu, hc⟩
    | false =>
      cases hcmd : t.restore_cmd with
      | none =>
        rw [restoreLoop_cons_none admin exec k t ts hg hcmd] at h
        exact Option.noConfusion h
      | some cmd =>
        cases he2 : (exec k cmd).1 with
        | true =>
          rw [restoreLoop_cons_ok admin exec k t ts cmd hg hcmd he2] at h
          obtain ⟨r', hrec, rfl⟩ := Option.map_eq_some'.1 h
          rcases List.mem_cons.1 he with rfl | he
          · exact ⟨t, List.mem_cons_self _ _, hg, cmd, hcmd, rfl⟩
          · obtain ⟨u, hu, hgu, hc⟩ := ih (k + 1) r' hrec e he
            exact ⟨u, List.mem_cons_of_mem _ hu, hgu, hc⟩
        | false =>
          rw [restoreLoop_cons_fail admin exec k t ts cmd hg hcmd he2] at h
          obtain ⟨r', hrec, rfl⟩ := Option.map_eq_some'.1 h
          rcases List.mem_cons.1 he with rfl | he
          · exact ⟨t, List.mem_cons_self _ _, hg, cmd, hcmd, rfl⟩
          · obtain ⟨u, hu, hgu, hc⟩ := ih (k + 1) r' hrec e he
            exact ⟨u, List.mem_cons_of_mem _ hu, hgu, hc⟩

theorem restoreLoop_gated_outcome (admin : Bool) (exec : Exec) :
    ∀ (k : Nat) (sel : List Tweak) (r : RestoreAcc),
      restoreLoop admin exec k sel = some r →
        ∀ p ∈ r.outcomes, (p.1.admin && !admin) = true →
          p.2 = Outcome.skippedPrivilege := by
  intro k sel
  induction sel generalizing k with
  | nil =>
    intro r h
    rw [restoreLoop_nil, Option.some_inj] at h
    subst h; simp
  | cons t ts ih =>
    intro r h p hp hadm
    cases hg : t.admin && !admin with
    | true =>
      rw [restoreLoop_cons_gated admin exec k t ts hg] at h
      obtain ⟨r', hrec, rfl⟩ := Option.map_eq_some'.1 h
      rcases List.mem_cons.1 hp with rfl | hp
      · rfl
      · exact ih k r' hrec p hp hadm
    | false =>
      cases hcmd : t.restore_cmd with
      | none =>
        rw [restoreLoop_cons_none admin exec k t ts hg hcmd] at h
        exact Option.noConfusion h
      | some cmd =>
        cases he : (exec k cmd).1 with
        | true =>
          rw [restoreLoop_cons_ok admin exec k t ts cmd hg hcmd he] at h
          obtain ⟨r', hrec, rfl⟩ := Option.map_eq_some'.1 h
          rcases List.mem_cons.1 hp with rfl | hp
          · rw [hg] at hadm; exact absurd hadm (by simp)
          · exact ih (k + 1) r' hrec p hp hadm
        | false =>
          rw [restoreLoop_cons_fail admin exec k t ts cmd hg hcmd he] at h
          obtain ⟨r', hrec, rfl⟩ := Option.map_eq_some'.1 h
          rcases List.mem_cons.1 hp with rfl | hp
          · rw [hg] at hadm; exact absurd hadm (by simp)
          · exact ih (k + 1) r' hrec p hp hadm

theorem restoreLoop_gated_mem (admin : Bool) (exec : Exec) :
    ∀ (k : Nat) (sel : List Tweak) (r : RestoreAcc),
      restoreLoop admin exec k sel = some r →
        ∀ t ∈ sel, (t.admin && !admin) = true →
          (t, Outcome.skippedPrivilege) ∈ r.outcomes := by
  intro k sel
  induction sel generalizing k with
  | nil => simp
  | cons u ts ih =>
    intro r h t ht hadm
    cases hg : u.admin && !admin with
    | true =>
      rw [restoreLoop_cons_gated admin exec k u ts hg] at h
      obtain ⟨r', hrec, rfl⟩ := Option.map_eq_some'.1 h
      rcases List.mem_cons.1 ht with rfl | ht
      · exact List.mem_cons_self _ _
      · exact List.mem_cons_of_mem _ (ih k r' hrec t ht hadm)
    | false =>
      rcases List.mem_cons.1 ht with rfl | ht
      · rw [hadm] at hg; exact absurd hg (by simp)
      · cases hcmd : u.restore_cmd with
        | none =>
          rw [restoreLoop_cons_none admin exec k u ts hg hcmd] at h
          exact Option.noConfusion h
        | some cmd =>
          cases he : (exec k cmd).1 with
          | true =>
            rw [restoreLoop_cons_ok admin exec k u ts cmd hg hcmd he] at h
            obtain ⟨r', hrec, rfl⟩ := Option.map_eq_some'.1 h
            exact List.mem_cons_of_mem _ (ih (k + 1) r' hrec t ht hadm)
          | false =>
            rw [restoreLoop_cons_fail admin exec k u ts cmd hg hcmd he] at h
            obtain ⟨r', hrec, rfl⟩ := Option.map_eq_some'.1 h
            exact List.mem_cons_of_mem _ (ih (k + 1) r' hrec t ht hadm)

theorem mem_outcome_ids_unique (sel : List Tweak) (outs : List (Tweak × Outcome))
    (o : Outcome) (hfst : outs.map Prod.fst = sel)
    (hnd : (sel.map Tweak.id).Nodup) (p : Tweak × Outcome) (hp : p ∈ outs)
    (hne : p.2 ≠ o) :
    p.1.id ∉ outs.filterMap (fun q => if q.2 = o then some q.1.id else none) := by
  intro hmem
  rw [List.mem_filterMap] at hmem
  obtain ⟨q, hq, hqe⟩ := hmem
  by_cases hqo : q.2 = o
  · rw [if_pos hqo] at hqe
    have hqid : q.1.id = p.1.id := Option.some_injective _ hqe
    have hpmem : p.1 ∈ sel := by
      rw [← hfst]; exact List.mem_map_of_mem Prod.fst hp
    have hqmem : q.1 ∈ sel := by
      rw [← hfst]; exact List.mem_map_of_mem Prod.fst hq
    have h1 : q.1 = p.1 := List.inj_on_of_nodup_map hnd hqmem hpmem hqid
    have houtnd : (outs.map Prod.fst).Nodup := by
      rw [hfst]; exact List.Nodup.of_map Tweak.id hnd
    have h2 : q = p := List.inj_on_of_nodup_map houtnd hq hp h1
    rw [h2] at hqo
    exact hne hqo
  · rw [if_neg hqo] at hqe
    exact Option.noConfusion hqe

theorem filter_persist_of_calls (evs : List Ev) (f : Finset String)
    (h : ∀ e ∈ evs, ∃ c, e = Ev.call c) :
    (evs ++ [Ev.persist f]).filter Ev.isPersist = [Ev.persist f] := by
  induction evs with
  | nil => rfl
  | cons e es ih =>
    obtain ⟨c, rfl⟩ := h e (List.mem_cons_self _ _)
    have : ((Ev.call c :: es) ++ [Ev.persist f]).filter Ev.isPersist
        = (es ++ [Ev.persist f]).filter Ev.isPersist := by
      simp [List.filter_cons, Ev.isPersist]
    rw [this]
    exact ih (fun e he => h e (List.mem_cons_of_mem _ he))

/-- Claim C1 — confirmed.  After an apply batch, the persisted set is the
prior set united with exactly the ids whose outcome is `Applied`: any id
not among those is a member of the final set exactly when it was a member
before, and (when ids are unique, the registry invariant) every tweak
whose outcome is a skip or failure keeps its prior membership. -/
theorem apply_persists_union (admin : Bool) (exec : Exec) (selected : List Tweak)
    (S : Finset String) :
    (apply_worker admin exec selected S).final
        = S ∪ (appliedIds (apply_worker admin exec selected S).outcomes).toFinset
    ∧ (∀ x : String, x ∉ appliedIds (apply_worker admin exec selected S).outcomes →
          (x ∈ (apply_worker admin exec selected S).final ↔ x ∈ S))
    ∧ ((selected.map Tweak.id).Nodup →
          ∀ p ∈ (apply_worker admin exec selected S).outcomes,
            p.2 ≠ Outcome.applied →
              (p.1.id ∈ (apply_worker admin exec selected S).final ↔ p.1.id ∈ S)) := by
  have hw : (apply_worker admin exec selected S).final
      = S ∪ ((applyLoop admin exec 0 selected).newly_applied).toFinset := rfl
  have ho : (apply_worker admin exec selected S).outcomes
      = (applyLoop admin exec 0 selected).outcomes := rfl
  have hkey : (apply_worker admin exec selected S).final
      = S ∪ (appliedIds (apply_worker admin exec selected S).outcomes).toFinset := by
    rw [hw, ho, applyLoop_newly]
  refine ⟨hkey, ?_, ?_⟩
  · intro x hx
    rw [hkey, Finset.mem_union, List.mem_toFinset]
    constructor
    · rintro (h | h)
      · exact h
      · exact absurd h hx
    · exact Or.inl
  · intro hnd p hp hne
    have hid : p.1.id ∉ appliedIds (apply_worker admin exec selected S).outcomes := by
      rw [ho]
      exact mem_outcome_ids_unique selected (applyLoop admin exec 0 selected).outcomes
        Outcome.applied (applyLoop_outcomes_fst admin exec 0 selected) hnd p
        (ho ▸ hp) hne
    rw [hkey, Finset.mem_union, List.mem_toFinset]
    constructor
    · rintro (h | h)
      · exact h
      · exact absurd h hid
    · exact Or.inl

/-- Witness for C1: a one-tweak batch at concrete inputs. -/
theorem apply_persists_union_witness :
    (apply_worker false (fun _ _ => (true, "")) [⟨"a_id", "Tweak A", "desc A", "System",
        false, "cmd A", some "undo A"⟩] ∅).final
      = ∅ ∪ (appliedIds (apply_worker false (fun _ _ => (true, "")) [⟨"a_id", "Tweak A",
          "desc A", "System", false, "cmd A", some "undo A"⟩] ∅).outcomes).toFinset :=
  (apply_persists_union false (fun _ _ => (true, ""))
    [⟨"a_id", "Tweak A", "desc A", "System", false, "cmd A", some "undo A"⟩] ∅).1

/-- Claim C2 — confirmed.  After a restore batch over a restorable list
(each tweak has a restore command, as guaranteed by the plan), the
persisted set is the prior set minus exactly the ids whose outcome is
`Restored`; with unique ids, every tweak whose restore was skipped for
privilege or failed stays in the set. -/
theorem restore_persists_diff (admin : Bool) (exec : Exec) (restorable : List Tweak)
    (S : Finset String) (hc : ∀ t ∈ restorable, t.restore_cmd ≠ none) :
    ∃ d, restore_worker admin exec restorable S = some d
      ∧ d.final = S \ (restoredIds d.outcomes).toFinset
      ∧ ((restorable.map Tweak.id).Nodup →
          ∀ p ∈ d.outcomes, p.2 ≠ Outcome.restored →
            p.1.id ∈ S → p.1.id ∈ d.final) := by
  obtain ⟨r, hr⟩ := restoreLoop_total admin exec 0 restorable hc
  refine ⟨⟨S \ r.restored.toFinset, r.outcomes,
      r.events ++ [Ev.persist (S \ r.restored.toFinset)]⟩, ?_, ?_, ?_⟩
  · rw [restore_worker, hr]; rfl
  · show S \ r.restored.toFinset = S \ (restoredIds r.outcomes).toFinset
    rw [restoreLoop_restored admin exec 0 restorable r hr]
  · intro hnd p hp hne hpS
    have hid : p.1.id ∉ restoredIds r.outcomes :=
      mem_outcome_ids_unique restorable r.outcomes Outcome.restored
        (restoreLoop_outcomes_fst admin exec 0 restorable r hr) hnd p hp hne
    show p.1.id ∈ S \ r.restored.toFinset
    rw [restoreLoop_restored admin exec 0 restorable r hr]
    rw [Finset.mem_sdiff, List.mem_toFinset]
    exact ⟨hpS, hid⟩

/-- Witness for C2: restoring one reversible tweak at concrete inputs. -/
theorem restore_persists_diff_witness :
    ∃ d, restore_worker false (fun _ _ => (true, "")) [⟨"a_id", "Tweak A", "desc A",
        "System", false, "cmd A", some "undo A"⟩] ({"a_id"} : Finset String) = some d
      ∧ d.final = ({"a_id"} : Finset String) \ (restoredIds d.outcomes).toFinset := by
  obtain ⟨d, h1, h2, _⟩ := restore_persists_diff false (fun _ _ => (true, ""))
    [⟨"a_id", "Tweak A", "desc A", "System", false, "cmd A", some "undo A"⟩]
    {"a_id"} (by decide)
  exact ⟨d, h1, h2⟩

/-- Claim C3 — confirmed.  An apply batch produces exactly one outcome
record per requested tweak, in input order — no failure aborts the batch —
and every record is `Applied`, `SkippedPrivilege` or `Failed`. -/
theorem apply_attempts_all (admin : Bool) (exec : Exec) (selected : List Tweak) :
    ((applyLoop admin exec 0 selected).outcomes).map Prod.fst = selected
    ∧ ((applyLoop admin exec 0 selected).outcomes).length = selected.length
    ∧ ∀ p ∈ (applyLoop admin exec 0 selected).outcomes,
        p.2 = Outcome.applied ∨ p.2 = Outcome.skippedPrivilege
          ∨ ∃ m, p.2 = Outcome.failed m := by
  refine ⟨applyLoop_outcomes_fst admin exec 0 selected, ?_,
    applyLoop_outcome_kinds admin exec 0 selected⟩
  have h := applyLoop_outcomes_fst admin exec 0 selected
  calc ((applyLoop admin exec 0 selected).outcomes).length
      = (((applyLoop admin exec 0 selected).outcomes).map Prod.fst).length :=
        (List.length_map _ _).symm
    _ = selected.length := by rw [h]

/-- Witness for C3: a two-tweak batch with a failing executor. -/
theorem apply_attempts_all_witness :
    ((applyLoop false (fun _ _ => (false, "boom")) 0
        [⟨"a_id", "Tweak A", "desc A", "System", false, "cmd A", some "undo A"⟩,
         ⟨"b_id", "Tweak B", "desc B", "System", true, "cmd B", some "undo B"⟩]).outcomes).length
      = 2 :=
  (apply_attempts_all false (fun _ _ => (false, "boom"))
    [⟨"a_id", "Tweak A", "desc A", "System", false, "cmd A", some "undo A"⟩,
     ⟨"b_id", "Tweak B", "desc B", "System", true, "cmd B", some "undo B"⟩]).2.1

theorem apply_final_mem_unchanged (admin : Bool) (exec : Exec) (selected : List Tweak)
    (S : Finset String) (hnd : (selected.map Tweak.id).Nodup)
    (p : Tweak × Outcome) (hp : p ∈ (applyLoop admin exec 0 selected).outcomes)
    (hne : p.2 ≠ Outcome.applied) :
    p.1.id ∈ (apply_worker admin exec selected S).final ↔ p.1.id ∈ S := by
  have hid : p.1.id ∉ appliedIds (applyLoop admin exec 0 selected).outcomes :=
    mem_outcome_ids_unique selected _ Outcome.applied
      (applyLoop_outcomes_fst admin exec 0 selected) hnd p hp hne
  have hw : (apply_worker admin exec selected S).final
      = S ∪ ((applyLoop admin exec 0 selected).newly_applied).toFinset := rfl
  rw [hw, applyLoop_newly, Finset.mem_union, List.mem_toFinset]
  constructor
  · rintro (h | h)
    · exact h
    · exact absurd h hid
  · exact Or.inl

/-- Claim C4 — confirmed.  With `has_privilege = false`, a tweak that
requires privilege gets a `SkippedPrivilege` record in the apply batch,
the executor is only ever invoked for tweaks that do not require
privilege, and the gated tweak's membership in the applied set is
unchanged (ids unique, the registry invariant).  This holds for every
apply batch, including ones containing irreversible tweaks.  The same
three guarantees hold for the restore batch over any restorable list
(every tweak carries a restore command — what `_on_restore`'s plan
guarantees for the lists the program actually passes). -/
theorem privilege_gate_skips (exec : Exec) (selected : List Tweak) (S : Finset String)
    (t : Tweak) (ht : t ∈ selected) (hadm : t.admin = true)
    (hnd : (selected.map Tweak.id).Nodup) :
    ((t, Outcome.skippedPrivilege) ∈ (applyLoop false exec 0 selected).outcomes
      ∧ (∀ e ∈ (applyLoop false exec 0 selected).events,
            ∃ u, u ∈ selected ∧ u.admin = false ∧ e = Ev.call u.apply_cmd)
      ∧ (t.id ∈ (apply_worker false exec selected S).final ↔ t.id ∈ S))
    ∧ ((∀ u ∈ selected, u.restore_cmd ≠ none) →
        ∃ r, restoreLoop false exec 0 selected = some r
          ∧ (t, Outcome.skippedPrivilege) ∈ r.outcomes
          ∧ (∀ e ∈ r.events, ∃ u, u ∈ selected ∧ u.admin = false
                ∧ ∃ c, u.restore_cmd = some c ∧ e = Ev.call c)
          ∧ ∃ d, restore_worker false exec selected S = some d
              ∧ (t.id ∈ d.final ↔ t.id ∈ S)) := by
  have hgate : (t.admin && !false) = true := by simp [hadm]
  constructor
  · refine ⟨applyLoop_gated_mem false exec 0 selected t ht hgate, ?_, ?_⟩
    · intro e he
      obtain ⟨u, hu, hgu, heu⟩ := applyLoop_events false exec 0 selected e he
      refine ⟨u, hu, ?_, heu⟩
      simpa using hgu
    · exact apply_final_mem_unchanged false exec selected S hnd
        (t, Outcome.skippedPrivilege)
        (applyLoop_gated_mem false exec 0 selected t ht hgate) (by simp)
  · intro hc
    obtain ⟨r, hr⟩ := restoreLoop_total false exec 0 selected hc
    refine ⟨r, hr, restoreLoop_gated_mem false exec 0 selected r hr t ht hgate,
      ?_, ?_⟩
    · intro e he
      obtain ⟨u, hu, hgu, c, hcu, heu⟩ := restoreLoop_events false exec 0 selected r hr e he
      exact ⟨u, hu, by simpa using hgu, c, hcu, heu⟩
    · refine ⟨⟨S \ r.restored.toFinset, r.outcomes,
        r.events ++ [Ev.persist (S \ r.restored.toFinset)]⟩, ?_, ?_⟩
      · rw [restore_worker, hr]; rfl
      · show t.id ∈ S \ r.restored.toFinset ↔ t.id ∈ S
        have hid : t.id ∉ restoredIds r.outcomes :=
          mem_outcome_ids_unique selected r.outcomes Outcome.restored
            (restoreLoop_outcomes_fst false exec 0 selected r hr) hnd
            (t, Outcome.skippedPrivilege)
            (restoreLoop_gated_mem false exec 0 selected r hr t ht hgate) (by simp)
        rw [restoreLoop_restored false exec 0 selected r hr, Finset.mem_sdiff,
          List.mem_toFinset]
        constructor
        · exact And.left
        · intro hS
          exact ⟨hS, hid⟩

/-- Witness for C4: an apply batch containing the irreversible tweak C
(no restore command) together with the privileged tweak B; B gets skipped
and its membership in the (empty) applied set is unchanged. -/
theorem privilege_gate_skips_witness :
    (⟨"b_id", "Tweak B", "desc B", "System", true, "cmd B", some "undo B"⟩,
        Outcome.skippedPrivilege)
      ∈ (applyLoop false (fun _ _ => (true, "")) 0
          [⟨"c_id", "Tweak C", "desc C", "Graphics", false, "cmd C", none⟩,
           ⟨"b_id", "Tweak B", "desc B", "System", true, "cmd B", some "undo B"⟩]).outcomes
    ∧ ("b_id" ∈ (apply_worker false (fun _ _ => (true, ""))
          [⟨"c_id", "Tweak C", "desc C", "Graphics", false, "cmd C", none⟩,
           ⟨"b_id", "Tweak B", "desc B", "System", true, "cmd B", some "undo B"⟩]
          ∅).final
        ↔ "b_id" ∈ (∅ : Finset String)) := by
  have h := privilege_gate_skips (fun _ _ => (true, ""))
    [⟨"c_id", "Tweak C", "desc C", "Graphics", false, "cmd C", none⟩,
     ⟨"b_id", "Tweak B", "desc B", "System", true, "cmd B", some "undo B"⟩]
    ∅ ⟨"b_id", "Tweak B", "desc B", "System", true, "cmd B", some "undo B"⟩
    (by decide) rfl (by decide)
  exact ⟨h.1.1, h.1.2.2⟩

/-- Claim C5 — confirmed.  The restoration plan partitions the applied set
(intersected with the registry) into disjoint restorable and irreversible
lists, both sublists of the registry (hence preserving declaration order):
restorable tweaks have a restore command, irreversible ones do not, their
ids jointly cover exactly `applied ∩ registry-ids`, and stale applied ids
matching no registry tweak are in neither list. -/
theorem restore_plan_partition (tweaks : List Tweak) (applied : Finset String) :
    (∀ t ∈ plan_restorable tweaks applied, t ∉ plan_irreversible tweaks applied)
    ∧ List.Sublist (plan_restorable tweaks applied) tweaks
    ∧ List.Sublist (plan_irreversible tweaks applied) tweaks
    ∧ (∀ t ∈ plan_restorable tweaks applied, t.id ∈ applied ∧ t.restore_cmd ≠ none)
    ∧ (∀ t ∈ plan_irreversible tweaks applied, t.id ∈ applied ∧ t.restore_cmd = none)
    ∧ ((plan_restorable tweaks applied).map Tweak.id).toFinset
        ∪ ((plan_irreversible tweaks applied).map Tweak.id).toFinset
        = applied ∩ (tweaks.map Tweak.id).toFinset
    ∧ (∀ x ∈ applied, (∀ t ∈ tweaks, t.id ≠ x) →
        x ∉ (plan_restorable tweaks applied).map Tweak.id
        ∧ x ∉ (plan_irreversible tweaks applied).map Tweak.id) := by
  have hr : ∀ t, t ∈ plan_restorable tweaks applied
      ↔ t ∈ tweaks ∧ t.id ∈ applied ∧ t.restore_cmd.isSome = true := by
    intro t
    simp [plan_restorable, List.mem_filter, and_assoc]
  have hi : ∀ t, t ∈ plan_irreversible tweaks applied
      ↔ t ∈ tweaks ∧ t.id ∈ applied ∧ t.restore_cmd.isNone = true := by
    intro t
    simp [plan_irreversible, List.mem_filter, and_assoc]
  refine ⟨?_, List.filter_sublist _, List.filter_sublist _, ?_, ?_, ?_, ?_⟩
  · intro t h1 h2
    obtain ⟨_, _, hs⟩ := (hr t).1 h1
    obtain ⟨_, _, hn⟩ := (hi t).1 h2
    rw [Option.isSome_iff_exists] at hs
    obtain ⟨c, hc⟩ := hs
    rw [Option.isNone_iff_eq_none] at hn
    rw [hn] at hc
    exact Option.noConfusion hc
  · intro t h1
    obtain ⟨_, hap, hs⟩ := (hr t).1 h1
    refine ⟨hap, ?_⟩
    rw [Option.isSome_iff_exists] at hs
    obtain ⟨c, hc⟩ := hs
    rw [hc]
    exact Option.noConfusion
  · intro t h1
    obtain ⟨_, hap, hn⟩ := (hi t).1 h1
    exact ⟨hap, Option.isNone_iff_eq_none.1 hn⟩
  · ext x
    simp only [Finset.mem_union, Finset.mem_inter, List.mem_toFinset, List.mem_map]
    constructor
    · rintro (⟨t, ht, rfl⟩ | ⟨t, ht, rfl⟩)
      · obtain ⟨htw, hap, _⟩ := (hr t).1 ht
        exact ⟨hap, t, htw, rfl⟩
      · obtain ⟨htw, hap, _⟩ := (hi t).1 ht
        exact ⟨hap, t, htw, rfl⟩
    · rintro ⟨hap, t, htw, rfl⟩
      cases hcmd : t.restore_cmd with
      | none =>
        exact Or.inr ⟨t, (hi t).2 ⟨htw, hap, by simp [hcmd]⟩, rfl⟩
      | some c =>
        exact Or.inl ⟨t, (hr t).2 ⟨htw, hap, by simp [hcmd]⟩, rfl⟩
  · intro x _ hstale
    constructor
    · intro hmem
      obtain ⟨t, ht, hid⟩ := List.mem_map.1 hmem
      exact hstale t ((hr t).1 ht).1 hid
    · intro hmem
      obtain ⟨t, ht, hid⟩ := List.mem_map.1 hmem
      exact hstale t ((hi t).1 ht).1 hid

/-- Witness for C5: a registry with one reversible and one irreversible
tweak, both applied. -/
theorem restore_plan_partition_witness :
    ((plan_restorable
        [⟨"a_id", "Tweak A", "desc A", "System", false, "cmd A", some "undo A"⟩,
         ⟨"c_id", "Tweak C", "desc C", "Graphics", false, "cmd C", none⟩]
        ({"a_id", "c_id"} : Finset String)).map Tweak.id).toFinset
      ∪ ((plan_irreversible
        [⟨"a_id", "Tweak A", "desc A", "System", false, "cmd A", some "undo A"⟩,
         ⟨"c_id", "Tweak C", "desc C", "Graphics", false, "cmd C", none⟩]
        ({"a_id", "c_id"} : Finset String)).map Tweak.id).toFinset
      = ({"a_id", "c_id"} : Finset String)
        ∩ (([⟨"a_id", "Tweak A", "desc A", "System", false, "cmd A", some "undo A"⟩,
             ⟨"c_id", "Tweak C", "desc C", "Graphics", false, "cmd C", none⟩] :
            List Tweak).map Tweak.id).toFinset :=
  (restore_plan_partition
    [⟨"a_id", "Tweak A", "desc A", "System", false, "cmd A", some "undo A"⟩,
     ⟨"c_id", "Tweak C", "desc C", "Graphics", false, "cmd C", none⟩]
    {"a_id", "c_id"}).2.2.2.2.2.1

/-- Claim C9 — confirmed.  In every apply batch (including ones over
irreversible tweaks) and in every restore batch over a restorable list
(what the program's plan passes), the event trace is the loop's executor
calls followed by a single persist of the final set: the loop itself
emits only executor calls, so durable state is written exactly once per
batch, and only after every tweak in the batch has been attempted. -/
theorem single_persist_at_batch_end (admin : Bool) (exec : Exec)
    (selected : List Tweak) (S : Finset String) :
    ((apply_worker admin exec selected S).events
        = (applyLoop admin exec 0 selected).events
            ++ [Ev.persist (apply_worker admin exec selected S).final]
      ∧ (∀ e ∈ (applyLoop admin exec 0 selected).events, ∃ c, e = Ev.call c)
      ∧ (apply_worker admin exec selected S).events.filter Ev.isPersist
          = [Ev.persist (apply_worker admin exec selected S).final])
    ∧ ((∀ t ∈ selected, t.restore_cmd ≠ none) →
        ∃ d r, restore_worker admin exec selected S = some d
          ∧ restoreLoop admin exec 0 selected = some r
          ∧ d.events = r.events ++ [Ev.persist d.final]
          ∧ (∀ e ∈ r.events, ∃ c, e = Ev.call c)
          ∧ d.events.filter Ev.isPersist = [Ev.persist d.final]) := by
  have happly_calls : ∀ e ∈ (applyLoop admin exec 0 selected).events, ∃ c, e = Ev.call c := by
    intro e he
    obtain ⟨u, _, _, heu⟩ := applyLoop_events admin exec 0 selected e he
    exact ⟨u.apply_cmd, heu⟩
  constructor
  · exact ⟨rfl, happly_calls,
      filter_persist_of_calls (applyLoop admin exec 0 selected).events
        (apply_worker admin exec selected S).final happly_calls⟩
  · intro hc
    obtain ⟨r, hr⟩ := restoreLoop_total admin exec 0 selected hc
    have hrestore_calls : ∀ e ∈ r.events, ∃ c, e = Ev.call c := by
      intro e he
      obtain ⟨u, _, _, c, _, heu⟩ := restoreLoop_events admin exec 0 selected r hr e he
      exact ⟨c, heu⟩
    refine ⟨⟨S \ r.restored.toFinset, r.outcomes,
        r.events ++ [Ev.persist (S \ r.restored.toFinset)]⟩, r, ?_, hr, rfl,
        hrestore_calls, ?_⟩
    · rw [restore_worker, hr]; rfl
    · exact filter_persist_of_calls r.events (S \ r.restored.toFinset) hrestore_calls

/-- Witness for C9: an apply batch over the irreversible tweak C (no
restore command). -/
theorem single_persist_at_batch_end_witness :
    (apply_worker false (fun _ _ => (true, ""))
        [⟨"c_id", "Tweak C", "desc C", "Graphics", false, "cmd C", none⟩] ∅).events
      = (applyLoop false (fun _ _ => (true, "")) 0
          [⟨"c_id", "Tweak C", "desc C", "Graphics", false, "cmd C", none⟩]).events
        ++ [Ev.persist (apply_worker false (fun _ _ => (true, ""))
            [⟨"c_id", "Tweak C", "desc C", "Graphics", false, "cmd C", none⟩] ∅).final] :=
  (single_persist_at_batch_end false (fun _ _ => (true, ""))
    [⟨"c_id", "Tweak C", "desc C", "Graphics", false, "cmd C", none⟩] ∅).1.1

/-- Claim C10 — confirmed.  An empty selection never starts a batch:
`_on_apply` shows the informational popup and returns before the worker
thread is spawned, so the executor is never invoked, nothing is persisted
(no events at all), and the in-memory applied set is unchanged. -/
theorem empty_selection_no_batch (tweaks : List Tweak) (checked : String → Bool)
    (admin : Bool) (exec : Exec) (S : Finset String)
    (h : tweaks.filter (fun t => checked t.id) = []) :
    on_apply tweaks checked admin exec S
      = ⟨S, [], some "Please select at least one tweak to apply."⟩ := by
  simp [on_apply, h]

/-- Witness for C10: a registry with one tweak and nothing selected. -/
theorem empty_selection_no_batch_witness :
    on_apply [⟨"a_id", "Tweak A", "desc A", "System", false, "cmd A", some "undo A"⟩]
        (fun _ => false) false (fun _ _ => (true, "")) ∅
      = ⟨∅, [], some "Please select at least one tweak to apply."⟩ :=
  empty_selection_no_batch
    [⟨"a_id", "Tweak A", "desc A", "System", false, "cmd A", some "undo A"⟩]
    (fun _ => false) false (fun _ _ => (true, "")) ∅ rfl

end ArcBooster
